import Mathlib

/-
Shallow embedding of the work-time analysis pipeline of `src/analyze_work_time.py`
(the Streamlit front end `src/app.py` reuses `process_work_chunks`,
`generate_summary` and a verbatim copy of the min-hours filter, so the embedded
definitions cover both files).

Modelling choices:
- Timestamps are whole seconds since the epoch (`ℤ`): the source parses the
  input column with format `%Y-%m-%d %H:%M:%S`, which has second resolution.
- Derived quantities (`Duration (min)`, `Duration (hours)`, `Gap to Next`,
  rounded hour values) are exact rationals (`ℚ`); the floating-point layer is
  modelled by exact arithmetic with round-half-to-even, the rounding mode of
  `pandas.DataFrame.round`.
- `pandas.sort_values` sorts by the given key only; for a descending sort
  pandas (`nargsort`) reverses the values and their index labels, argsorts
  ascending (stably at these sizes: numpy falls back to insertion sort on small
  arrays), and reverses the resulting indexer, so values descend while tied
  rows keep their original order.  It is modelled as reverse, stable ascending
  sort, reverse.  Where the sort key is total (sorting timestamps, users, or
  group keys), any correct sort produces the same list, so
  `List.insertionSort` is used as the executable realization.
- `groupby` iterates groups in ascending key order (pandas default `sort=True`);
  it is modelled by the sorted deduplicated key list plus a filter per key.
-/

/-- Round-half-to-even of a rational to the nearest integer, the rounding mode
used by `pandas.DataFrame.round` (modulo binary floating point). -/
def roundHalfEven (q : ℚ) : ℤ :=
  if q - ⌊q⌋ < 1/2 then ⌊q⌋
  else if 1/2 < q - ⌊q⌋ then ⌊q⌋ + 1
  else if ⌊q⌋ % 2 = 0 then ⌊q⌋ else ⌊q⌋ + 1

/-- Rounding to 2 decimal places, as `round(2)` does in the source. -/
def round2 (q : ℚ) : ℚ := (roundHalfEven (q * 100) : ℚ) / 100

/-- One activity record: the `User` column (a missing value is `none`) and the
`Date/Time (UTC)` column parsed to whole seconds. -/
structure Event where
  owner : Option String
  timestamp : ℤ
deriving DecidableEq

/-- One row of the chunks table built by `process_work_chunks`.  `stop` models
the `End` column (`end` is a Lean keyword); `gapToNext` is the `Gap to Next`
column, stored in minutes as in the source
(`time_diff.total_seconds() / 60`). -/
structure Chunk where
  developer : String
  start : ℤ
  stop : ℤ
  durationMin : ℚ
  durationHours : ℚ
  logCount : ℕ
  gapToNext : Option ℚ
deriving DecidableEq

instance : Inhabited Chunk := ⟨⟨"", 0, 0, 0, 0, 0, none⟩⟩

/-- The row filter `df[df['User'].notna() & (df['User'] != '')]`. -/
def isValidEvent (e : Event) : Bool :=
  match e.owner with
  | some s => s != ""
  | none => false

/-- The dictionary appended to `chunks` when a chunk is closed:
`duration = chunk_end - chunk_start`, `Duration (min)` and `Duration (hours)`
divide its seconds by 60 and 3600. -/
def mkChunk (user : String) (chunkStart chunkEnd : ℤ) (count : ℕ)
    (gap : Option ℚ) : Chunk :=
  { developer := user
    start := chunkStart
    stop := chunkEnd
    durationMin := ((chunkEnd - chunkStart : ℤ) : ℚ) / 60
    durationHours := ((chunkEnd - chunkStart : ℤ) : ℚ) / 3600
    logCount := count
    gapToNext := gap }

/-- The inner loop of `process_work_chunks` over one user's remaining sorted
timestamps, carrying the running state `chunk_start`, `chunk_end`,
`chunk_logs_count`.  The branch condition is the strict source comparison
`time_diff > inactivity_threshold` with `inactivity_threshold =
timedelta(minutes=m)`, i.e. in seconds `t - chunk_end > 60 * m`; a closed chunk
records `Gap to Next` as `time_diff.total_seconds() / 60`.  At the end of the
timestamps the open chunk is closed with `Gap to Next = None`. -/
def segScan (user : String) (m : ℚ) (chunkStart chunkEnd : ℤ) (count : ℕ) :
    List ℤ → List Chunk
  | [] => [mkChunk user chunkStart chunkEnd count none]
  | t :: ts =>
    if ((t - chunkEnd : ℤ) : ℚ) > 60 * m then
      mkChunk user chunkStart chunkEnd count (some (((t - chunkEnd : ℤ) : ℚ) / 60)) ::
        segScan user m t t 1 ts
    else
      segScan user m chunkStart t (count + 1) ts

/-- Segmentation of one user's ascending timestamps: the first event opens a
chunk starting and ending at its own timestamp with count 1; no event yields no
chunk. -/
def segmentUser (user : String) (m : ℚ) : List ℤ → List Chunk
  | [] => []
  | t :: ts => segScan user m t t 1 ts

/-- The valid rows kept by `process_work_chunks` before sorting. -/
def validEvents (events : List Event) : List Event := events.filter isValidEvent

/-- The distinct users in ascending order: after
`df.sort_values(['User', 'DateTime'])`, `df.groupby('User')` iterates its groups
in ascending user order. -/
def sortedUsers (events : List Event) : List String :=
  (((validEvents events).map (fun e => e.owner.getD "")).insertionSort (· ≤ ·)).dedup

/-- One user's timestamps in ascending order: the rows of that user's group
after the sort by `['User', 'DateTime']`. -/
def userTimestamps (events : List Event) (user : String) : List ℤ :=
  (((validEvents events).filter (fun e => e.owner.getD "" == user)).map
    (fun e => e.timestamp)).insertionSort (· ≤ ·)

/-- The chunk rows contributed by one user inside `process_work_chunks`. -/
def userChunks (events : List Event) (m : ℚ) (user : String) : List Chunk :=
  segmentUser user m (userTimestamps events user)

/-- `process_work_chunks(df, inactivity_minutes)`: filter invalid users, sort by
user and time, and segment each user's timeline; the chunk table concatenates
the per-user chunk lists in ascending user order. -/
def process_work_chunks (events : List Event) (m : ℚ) : List Chunk :=
  (sortedUsers events).flatMap (userChunks events m)

/-- One row of the `generate_summary` output table. -/
structure SummaryRow where
  developer : String
  totalHours : ℚ
  logCount : ℕ
  chunkCount : ℕ
deriving DecidableEq

/-- The ascending distinct keys of `chunks_df.groupby('Developer')`. -/
def summaryOwners (chunks : List Chunk) : List String :=
  ((chunks.map (fun c => c.developer)).insertionSort (· ≤ ·)).dedup

/-- One aggregated row of `generate_summary`: full-precision sums per developer,
then `summary.round(2)` (which only affects the hours column; the counts are
integers). -/
def summaryRow (chunks : List Chunk) (dev : String) : SummaryRow :=
  let cs := chunks.filter (fun c => c.developer == dev)
  { developer := dev
    totalHours := round2 ((cs.map (fun c => c.durationHours)).sum)
    logCount := (cs.map (fun c => c.logCount)).sum
    chunkCount := cs.length }

/-- `summary.sort_values('Duration (hours)', ascending=False)`: pandas
`nargsort` reverses the values and their index labels, argsorts the reversed
column ascending (stably at these sizes), and reverses the resulting indexer,
with no secondary key.  The two reversals cancel on ties, so tied rows keep
their original order while the values descend. -/
def sortByHoursDescending (rows : List SummaryRow) : List SummaryRow :=
  (rows.reverse.insertionSort (fun a b => a.totalHours ≤ b.totalHours)).reverse

/-- `generate_summary(chunks_df)`: aggregate per developer, round, then sort by
descending rounded hours. -/
def generate_summary (chunks : List Chunk) : List SummaryRow :=
  sortByHoursDescending ((summaryOwners chunks).map (summaryRow chunks))

/-- `chunks_df.groupby('Developer')['Duration (hours)'].sum()` at one key, used
by the min-hours filter in `main()`. -/
def devHours (chunks : List Chunk) (dev : String) : ℚ :=
  ((chunks.filter (fun c => c.developer == dev)).map (fun c => c.durationHours)).sum

/-- `valid_developers = dev_hours[dev_hours >= args.min_hours].index`. -/
def validDevelopers (chunks : List Chunk) (minHours : ℚ) : List String :=
  (summaryOwners chunks).filter (fun d => decide (minHours ≤ devHours chunks d))

/-- The minimum-hours filter inlined in `main()` of both source files: it runs
only under `if args.min_hours > 0` and keeps the chunks whose developer is in
`valid_developers`. -/
def min_hours_filter (chunks : List Chunk) (minHours : ℚ) : List Chunk :=
  if 0 < minHours then
    chunks.filter (fun c => decide (c.developer ∈ validDevelopers chunks minHours))
  else chunks

/-- `chunks_df['Developer'].nunique()`. -/
def nuniqueDevelopers (chunks : List Chunk) : ℕ :=
  ((chunks.map (fun c => c.developer)).dedup).length

/-- `filtered_count`: the difference of developer counts before and after the
filter (0 when the filter branch is skipped, since the table is unchanged). -/
def removedOwnerCount (chunks : List Chunk) (minHours : ℚ) : ℕ :=
  nuniqueDevelopers chunks - nuniqueDevelopers (min_hours_filter chunks minHours)

/-- Modelled from the spec: the configuration-error taxonomy of spec section 7.
The source files contain no configuration validation and no error type for it;
the type exists so that the absence of a failure path is expressible. -/
inductive ConfigError where
  | nonPositiveThreshold
  | negativeMinHours
deriving DecidableEq

/-- The processing done by `main()` on the loaded events: segmentation followed
by the optional min-hours filter.  The source never validates `args.inactivity`
or `args.min_hours` and raises nothing for them, so the result is always
`Except.ok`. -/
def runPipeline (events : List Event) (m minHours : ℚ) :
    Except ConfigError (List Chunk) :=
  Except.ok (min_hours_filter (process_work_chunks events m) minHours)

/-- `chunks_with_date['Date'] = chunks_with_date['Start'].dt.date`: the calendar
date of a timestamp in whole seconds is its floor division by 86400. -/
def chunkDate (c : Chunk) : ℤ := Int.fdiv c.start 86400

/-- Lexicographic order on `groupby(['Date', 'Developer'])` keys. -/
def lexLe (p q : ℤ × String) : Prop :=
  p.1 < q.1 ∨ (p.1 = q.1 ∧ p.2 ≤ q.2)

instance : DecidableRel lexLe := fun p q =>
  inferInstanceAs (Decidable (p.1 < q.1 ∨ (p.1 = q.1 ∧ p.2 ≤ q.2)))

/-- The ascending distinct keys of `groupby(['Date', 'Developer'])` in
`export_excel`. -/
def dayKeys (chunks : List Chunk) : List (ℤ × String) :=
  ((chunks.map (fun c => (chunkDate c, c.developer))).insertionSort lexLe).dedup

/-- The full-precision `Duration (hours)` sum of one (date, developer) bucket. -/
def dayBucketHours (chunks : List Chunk) (d : ℤ) (dev : String) : ℚ :=
  ((chunks.filter (fun c => chunkDate c == d && c.developer == dev)).map
    (fun c => c.durationHours)).sum

/-- `pivot_by_day`: one row per (Date, Developer) key with that bucket's summed
hours, with `pivot_by_day.round(2)` already applied to the value. -/
def pivot_by_day (chunks : List Chunk) : List ((ℤ × String) × ℚ) :=
  (dayKeys chunks).map (fun k => (k, round2 (dayBucketHours chunks k.1 k.2)))

/-- The distinct dates, the index of `pivot_table`. -/
def pivotDates (chunks : List Chunk) : List ℤ :=
  ((chunks.map chunkDate).insertionSort (· ≤ ·)).dedup

/-- The distinct developers, the columns of `pivot_table`. -/
def pivotDevelopers (chunks : List Chunk) : List String :=
  ((chunks.map (fun c => c.developer)).insertionSort (· ≤ ·)).dedup

/-- One cell of `pivot_table`: `aggfunc='sum'` over the matching `pivot_by_day`
rows with `fill_value=0`, then `.round(2)` once more. -/
def pivotCell (chunks : List Chunk) (d : ℤ) (dev : String) : ℚ :=
  round2 ((((pivot_by_day chunks).filter
    (fun r => r.1.1 == d && r.1.2 == dev)).map (fun r => r.2)).sum)

/-- `pivot_table['TOTAL'] = pivot_table.sum(axis=1).round(2)`: the per-day total
is the rounded sum of that day's already-rounded cells. -/
def pivotRowTotal (chunks : List Chunk) (d : ℤ) : ℚ :=
  round2 (((pivotDevelopers chunks).map (pivotCell chunks d)).sum)

/-- The TOTAL entry of the TOTAL row written by
`pivot_table.loc['TOTAL'] = pivot_table.sum(axis=0).round(2)`: the grand total
is the rounded sum of the already-rounded per-day totals (the TOTAL column). -/
def pivotGrandTotal (chunks : List Chunk) : ℚ :=
  round2 (((pivotDates chunks).map (pivotRowTotal chunks)).sum)

/-- Modelled from the spec: the numeric policy of spec sections 4.2 and 3 asks
for the grand total as an independent full-precision sum over the bucketed
table, rounded once at the presentation boundary.  A full-precision sum of all
bucket sums equals the full-precision sum of all chunk hours. -/
def specGrandTotal (chunks : List Chunk) : ℚ :=
  round2 ((chunks.map (fun c => c.durationHours)).sum)

/-- Count of adjacent gaps strictly above the threshold in a timestamp list. -/
def bigGapCount (m : ℚ) (ts : List ℤ) : ℕ :=
  (ts.zip ts.tail).countP (fun p => decide (((p.2 - p.1 : ℤ) : ℚ) > 60 * m))

/-- The adjacency relation of spec section 3 between two consecutive chunks of
one owner: the first records as its gap the minutes from its end to the start of
the second, and that gap is strictly above the threshold. -/
def chunkGapRel (m : ℚ) (a b : Chunk) : Prop :=
  a.gapToNext = some (((b.start - a.stop : ℤ) : ℚ) / 60) ∧
    60 * m < ((b.start - a.stop : ℤ) : ℚ)

/-! Concrete inputs used by witnesses and counterexamples. -/

/-- Boundary input: one owner with two events exactly 30 minutes apart. -/
def c1events : List Event := [⟨some "a", 0⟩, ⟨some "a", 1800⟩]

/-- Gap-invariant input: one owner at seconds 0, 600 and 3000, given unsorted. -/
def c2events : List Event := [⟨some "a", 3000⟩, ⟨some "a", 0⟩, ⟨some "a", 600⟩]

/-- Rounding-policy input: three 14-second chunks of one owner on three
consecutive days; each chunk is 7/1800 hours. -/
def c3chunks : List Chunk :=
  [⟨"a", 0, 14, 7/30, 7/1800, 1, none⟩,
   ⟨"a", 86400, 86414, 7/30, 7/1800, 1, none⟩,
   ⟨"a", 172800, 172814, 7/30, 7/1800, 1, none⟩]

/-- Configuration input: one owner with two events one second apart. -/
def c5events : List Event := [⟨some "a", 0⟩, ⟨some "a", 1⟩]

/-- Filter-stage input: owner a with 1 total hour, owner b with 2. -/
def c6chunks : List Chunk :=
  [⟨"a", 0, 3600, 60, 1, 2, none⟩, ⟨"b", 0, 7200, 120, 2, 3, none⟩]

/-- Order-independence inputs: the same two events in both input orders. -/
def c7eventsA : List Event := [⟨some "a", 100⟩, ⟨some "a", 0⟩]

/-- The swapped companion of `c7eventsA`. -/
def c7eventsB : List Event := [⟨some "a", 0⟩, ⟨some "a", 100⟩]

/-- Duration-consistency input: one owner with two events 10 minutes apart. -/
def c10events : List Event := [⟨some "a", 0⟩, ⟨some "a", 600⟩]


/-! Helper lemmas about rounding. -/

lemma roundHalfEven_sub_abs_le (q : ℚ) : |(roundHalfEven q : ℚ) - q| ≤ 1/2 := by
  have h0 : 0 ≤ q - ⌊q⌋ := by
    have := Int.fract_nonneg q
    rwa [← Int.self_sub_floor] at this
  have h1 : q - ⌊q⌋ < 1 := by
    have := Int.fract_lt_one q
    rwa [← Int.self_sub_floor] at this
  unfold roundHalfEven
  split
  · rename_i h
    rw [abs_sub_comm, abs_of_nonneg h0]
    linarith
  · rename_i h
    push_neg at h
    split
    · rename_i h2
      push_cast
      rw [abs_of_nonneg (by linarith)]
      linarith
    · rename_i h2
      push_neg at h2
      have hq : q - ⌊q⌋ = 1/2 := le_antisymm h2 h
      split
      · rw [abs_sub_comm, abs_of_nonneg h0, hq]
      · push_cast
        rw [abs_of_nonneg (by linarith)]
        linarith

lemma round2_sub_abs_le (q : ℚ) : |round2 q - q| ≤ 1/200 := by
  have h := roundHalfEven_sub_abs_le (q * 100)
  unfold round2
  have : (roundHalfEven (q * 100) : ℚ) / 100 - q
      = ((roundHalfEven (q * 100) : ℚ) - q * 100) / 100 := by ring
  rw [this, abs_div, abs_of_pos (by norm_num : (0:ℚ) < 100)]
  rw [div_le_div_iff₀ (by norm_num) (by norm_num)]
  nlinarith [abs_nonneg ((roundHalfEven (q * 100) : ℚ) - q * 100)]

lemma roundHalfEven_intCast (k : ℤ) : roundHalfEven (k : ℚ) = k := by
  unfold roundHalfEven
  rw [Int.floor_intCast]
  simp

lemma round2_idem (q : ℚ) : round2 (round2 q) = round2 q := by
  unfold round2
  rw [div_mul_cancel₀ _ (by norm_num : (100:ℚ) ≠ 0), roundHalfEven_intCast]

lemma round2_zero : round2 0 = 0 := by
  have h : roundHalfEven ((0:ℚ) * 100) = 0 := by
    rw [show ((0:ℚ) * 100 = ((0:ℤ) : ℚ)) by norm_num, roundHalfEven_intCast]
  unfold round2
  rw [h]
  norm_num

/-! Helper lemmas about the segmentation scan. -/

lemma segScan_ne_nil (user : String) (m : ℚ) :
    ∀ (ts : List ℤ) (cs ce : ℤ) (cnt : ℕ), segScan user m cs ce cnt ts ≠ [] := by
  intro ts
  induction ts with
  | nil => intro cs ce cnt; simp [segScan]
  | cons t ts ih =>
    intro cs ce cnt
    rw [segScan]
    split
    · simp
    · exact ih cs t (cnt + 1)

lemma segScan_head_start (user : String) (m : ℚ) :
    ∀ (ts : List ℤ) (cs ce : ℤ) (cnt : ℕ),
      ∀ b ∈ (segScan user m cs ce cnt ts).head?, b.start = cs := by
  intro ts
  induction ts with
  | nil =>
    intro cs ce cnt b hb
    simp only [segScan, List.head?_cons, Option.mem_def, Option.some.injEq] at hb
    subst hb; rfl
  | cons t ts ih =>
    intro cs ce cnt b hb
    rw [segScan] at hb
    split at hb
    · simp only [List.head?_cons, Option.mem_def, Option.some.injEq] at hb
      subst hb; rfl
    · exact ih cs t (cnt + 1) b hb

lemma bigGapCount_single (m : ℚ) (a : ℤ) : bigGapCount m [a] = 0 := by
  simp [bigGapCount]

lemma bigGapCount_cons (m : ℚ) (a b : ℤ) (ts : List ℤ) :
    bigGapCount m (a :: b :: ts)
      = bigGapCount m (b :: ts) + (if 60 * m < ((b - a : ℤ) : ℚ) then 1 else 0) := by
  simp only [bigGapCount, List.tail_cons, List.zip_cons_cons, List.countP_cons,
    decide_eq_true_eq]

lemma segScan_length (user : String) (m : ℚ) :
    ∀ (ts : List ℤ) (cs ce : ℤ) (cnt : ℕ),
      (segScan user m cs ce cnt ts).length = 1 + bigGapCount m (ce :: ts) := by
  intro ts
  induction ts with
  | nil => intro cs ce cnt; simp [segScan, bigGapCount_single]
  | cons t ts ih =>
    intro cs ce cnt
    rw [segScan, bigGapCount_cons]
    split
    · simp only [List.length_cons, ih t t 1]
      omega
    · rw [ih cs t (cnt + 1)]
      omega

lemma segScan_sum_logCount (user : String) (m : ℚ) :
    ∀ (ts : List ℤ) (cs ce : ℤ) (cnt : ℕ),
      ((segScan user m cs ce cnt ts).map (fun c => c.logCount)).sum
        = cnt + ts.length := by
  intro ts
  induction ts with
  | nil => intro cs ce cnt; simp [segScan, mkChunk]
  | cons t ts ih =>
    intro cs ce cnt
    rw [segScan]
    split
    · simp only [List.map_cons, List.sum_cons, ih t t 1, mkChunk, List.length_cons]
      omega
    · rw [ih cs t (cnt + 1)]
      simp only [List.length_cons]
      omega

lemma segScan_developer (user : String) (m : ℚ) :
    ∀ (ts : List ℤ) (cs ce : ℤ) (cnt : ℕ),
      ∀ c ∈ segScan user m cs ce cnt ts, c.developer = user := by
  intro ts
  induction ts with
  | nil => intro cs ce cnt c hc; simp [segScan] at hc; simp [hc, mkChunk]
  | cons t ts ih =>
    intro cs ce cnt c hc
    rw [segScan] at hc
    split at hc
    · rcases List.mem_cons.mp hc with h | h
      · simp [h, mkChunk]
      · exact ih t t 1 c h
    · exact ih cs t (cnt + 1) c hc

lemma segScan_durations (user : String) (m : ℚ) :
    ∀ (ts : List ℤ) (cs ce : ℤ) (cnt : ℕ),
      ∀ c ∈ segScan user m cs ce cnt ts,
        c.durationMin = ((c.stop - c.start : ℤ) : ℚ) / 60 ∧
        c.durationHours = ((c.stop - c.start : ℤ) : ℚ) / 3600 := by
  intro ts
  induction ts with
  | nil => intro cs ce cnt c hc; simp [segScan] at hc; simp [hc, mkChunk]
  | cons t ts ih =>
    intro cs ce cnt c hc
    rw [segScan] at hc
    split at hc
    · rcases List.mem_cons.mp hc with h | h
      · simp [h, mkChunk]
      · exact ih t t 1 c h
    · exact ih cs t (cnt + 1) c hc

lemma segScan_start_le_stop (user : String) (m : ℚ) :
    ∀ (ts : List ℤ) (cs ce : ℤ) (cnt : ℕ), cs ≤ ce →
      List.Sorted (· ≤ ·) (ce :: ts) →
      ∀ c ∈ segScan user m cs ce cnt ts, c.start ≤ c.stop := by
  intro ts
  induction ts with
  | nil => intro cs ce cnt hle _ c hc; simp [segScan] at hc; simp [hc, mkChunk, hle]
  | cons t ts ih =>
    intro cs ce cnt hle hsorted c hc
    have hct : ce ≤ t := (List.sorted_cons.mp hsorted).1 t (by simp)
    have hts : List.Sorted (· ≤ ·) (t :: ts) := (List.sorted_cons.mp hsorted).2
    rw [segScan] at hc
    split at hc
    · rcases List.mem_cons.mp hc with h | h
      · simp [h, mkChunk, hle]
      · exact ih t t 1 le_rfl hts c h
    · exact ih cs t (cnt + 1) (le_trans hle hct) hts c hc

lemma segScan_chain (user : String) (m : ℚ) :
    ∀ (ts : List ℤ) (cs ce : ℤ) (cnt : ℕ),
      List.Chain' (chunkGapRel m) (segScan user m cs ce cnt ts) := by
  intro ts
  induction ts with
  | nil => intro cs ce cnt; simp [segScan]
  | cons t ts ih =>
    intro cs ce cnt
    rw [segScan]
    split
    · rename_i h
      refine List.chain'_cons'.mpr ⟨?_, ih t t 1⟩
      intro b hb
      have hb' := segScan_head_start user m ts t t 1 b hb
      constructor
      · simp [mkChunk, hb']
      · simp only [mkChunk, hb']
        exact h
    · exact ih cs t (cnt + 1)

lemma segScan_getLast_gap (user : String) (m : ℚ) :
    ∀ (ts : List ℤ) (cs ce : ℤ) (cnt : ℕ) (h : segScan user m cs ce cnt ts ≠ []),
      ((segScan user m cs ce cnt ts).getLast h).gapToNext = none := by
  intro ts
  induction ts with
  | nil =>
    intro cs ce cnt h
    simp [segScan, mkChunk]
  | cons t ts ih =>
    intro cs ce cnt h
    revert h
    rw [segScan]
    split
    · intro h
      rw [List.getLast_cons (segScan_ne_nil user m ts t t 1)]
      exact ih t t 1 _
    · intro h
      exact ih cs t (cnt + 1) _

/-! Helper lemmas about sorting, partitioning and membership. -/

lemma insertionSort_eq_of_perm {α : Type} [LinearOrder α] {l1 l2 : List α}
    (h : l1.Perm l2) :
    l1.insertionSort (· ≤ ·) = l2.insertionSort (· ≤ ·) := by
  exact @List.eq_of_perm_of_sorted α (· ≤ ·) _ _ _
    ((List.perm_insertionSort _ l1).trans (h.trans (List.perm_insertionSort _ l2).symm))
    (List.sorted_insertionSort _ l1) (List.sorted_insertionSort _ l2)

lemma sum_map_one {α : Type} (l : List α) : (l.map (fun _ => (1 : ℕ))).sum = l.length := by
  induction l with
  | nil => rfl
  | cons a t ih => simp [ih]; omega

lemma sum_fiberwise {α β M : Type} [DecidableEq β] [AddCommMonoid M]
    (key : α → β) (f : α → M) :
    ∀ (os : List β) (l : List α), os.Nodup → (∀ a ∈ l, key a ∈ os) →
      (os.map (fun o => ((l.filter (fun a => key a == o)).map f).sum)).sum
        = (l.map f).sum := by
  intro os
  induction os with
  | nil =>
    intro l _ hcov
    have hl : l = [] := by
      cases l with
      | nil => rfl
      | cons a t => exact absurd (hcov a (by simp)) (by simp)
    simp [hl]
  | cons o os ih =>
    intro l hnd hcov
    have hno : o ∉ os := (List.nodup_cons.mp hnd).1
    have hnd2 : os.Nodup := (List.nodup_cons.mp hnd).2
    have htail : ∀ o2 ∈ os,
        l.filter (fun a => key a == o2)
          = (l.filter (fun a => !(key a == o))).filter (fun a => key a == o2) := by
      intro o2 ho2
      rw [List.filter_filter]
      apply List.filter_congr
      intro x _
      by_cases h : key x = o2
      · have ho2o : ¬ o2 = o := fun hc => hno (hc ▸ ho2)
        simp [h, ho2o]
      · simp [h]
    have hcov2 : ∀ a ∈ l.filter (fun a => !(key a == o)), key a ∈ os := by
      intro a ha
      have hal : a ∈ l := List.mem_of_mem_filter ha
      have hne : ¬(key a = o) := by
        have := (List.mem_filter.mp ha).2
        simpa using this
      rcases List.mem_cons.mp (hcov a hal) with h | h
      · exact absurd h hne
      · exact h
    have hsplit : ((l.filter (fun a => key a == o)).map f).sum
        + ((l.filter (fun a => !(key a == o))).map f).sum = (l.map f).sum := by
      have hperm := (List.filter_append_perm (fun a => key a == o) l).map f
      have := hperm.sum_eq
      rwa [List.map_append, List.sum_append] at this
    simp only [List.map_cons, List.sum_cons]
    have hmapeq : os.map (fun o2 => ((l.filter (fun a => key a == o2)).map f).sum)
        = os.map (fun o2 =>
            (((l.filter (fun a => !(key a == o))).filter
              (fun a => key a == o2)).map f).sum) :=
      List.map_congr_left (fun o2 ho2 => by rw [htail o2 ho2])
    rw [hmapeq, ih (l.filter (fun a => !(key a == o))) hnd2 hcov2]
    exact hsplit

lemma length_fiberwise {α β : Type} [DecidableEq β] (key : α → β)
    (os : List β) (l : List α) (hnd : os.Nodup) (hcov : ∀ a ∈ l, key a ∈ os) :
    (os.map (fun o => (l.filter (fun a => key a == o)).length)).sum = l.length := by
  have h := sum_fiberwise key (fun _ => (1 : ℕ)) os l hnd hcov
  rw [sum_map_one] at h
  rw [← h]
  apply congrArg
  apply List.map_congr_left
  intro o _
  exact (sum_map_one _).symm

lemma nodup_filter_eq_single {α : Type} [DecidableEq α] {l : List α}
    (h : l.Nodup) (a : α) :
    l.filter (fun x => decide (x = a)) = if a ∈ l then [a] else [] := by
  induction l with
  | nil => simp
  | cons b t ih =>
    rcases List.nodup_cons.mp h with ⟨hb, ht⟩
    rw [List.filter_cons]
    by_cases hba : b = a
    · subst hba
      rw [if_pos (by simp), ih ht, if_neg hb, if_pos (List.mem_cons_self b t)]
    · rw [if_neg (by simp [hba]), ih ht]
      by_cases hat : a ∈ t
      · rw [if_pos hat, if_pos (List.mem_cons.mpr (Or.inr hat))]
      · rw [if_neg hat, if_neg ?_]
        intro h2
        rcases List.mem_cons.mp h2 with h3 | h3
        · exact hba h3.symm
        · exact hat h3

lemma mem_sortedUsers {events : List Event} {u : String} :
    u ∈ sortedUsers events ↔ u ∈ (validEvents events).map (fun e => e.owner.getD "") := by
  unfold sortedUsers
  rw [List.mem_dedup]
  exact (List.perm_insertionSort _ _).mem_iff

lemma mem_summaryOwners {chunks : List Chunk} {d : String} :
    d ∈ summaryOwners chunks ↔ d ∈ chunks.map (fun c => c.developer) := by
  unfold summaryOwners
  rw [List.mem_dedup]
  exact (List.perm_insertionSort _ _).mem_iff

lemma mem_dayKeys {chunks : List Chunk} {k : ℤ × String} :
    k ∈ dayKeys chunks ↔ k ∈ chunks.map (fun c => (chunkDate c, c.developer)) := by
  unfold dayKeys
  rw [List.mem_dedup]
  exact (List.perm_insertionSort _ _).mem_iff

lemma userTimestamps_length (events : List Event) (u : String) :
    (userTimestamps events u).length
      = ((validEvents events).filter (fun e => e.owner.getD "" == u)).length := by
  unfold userTimestamps
  rw [(List.perm_insertionSort _ _).length_eq, List.length_map]

lemma segmentUser_sum_logCount (u : String) (m : ℚ) (ts : List ℤ) :
    ((segmentUser u m ts).map (fun c => c.logCount)).sum = ts.length := by
  cases ts with
  | nil => rfl
  | cons t ts =>
    show ((segScan u m t t 1 ts).map (fun c => c.logCount)).sum = (t :: ts).length
    rw [segScan_sum_logCount]
    simp only [List.length_cons]
    omega

lemma sum_map_flatMap {α β M : Type} [AddCommMonoid M]
    (us : List α) (f : α → List β) (g : β → M) :
    ((us.flatMap f).map g).sum = (us.map (fun u => ((f u).map g).sum)).sum := by
  induction us with
  | nil => rfl
  | cons u us ih => simp only [List.flatMap_cons, List.map_append, List.sum_append,
      List.map_cons, List.sum_cons, ih]

/-! Helper lemmas for permutation invariance. -/

lemma sortedUsers_eq_of_perm {l1 l2 : List Event} (h : l1.Perm l2) :
    sortedUsers l1 = sortedUsers l2 := by
  unfold sortedUsers validEvents
  rw [insertionSort_eq_of_perm ((h.filter isValidEvent).map (fun e => e.owner.getD ""))]

lemma userTimestamps_eq_of_perm {l1 l2 : List Event} (h : l1.Perm l2) (u : String) :
    userTimestamps l1 u = userTimestamps l2 u := by
  unfold userTimestamps validEvents
  rw [insertionSort_eq_of_perm
    (((h.filter isValidEvent).filter (fun e => e.owner.getD "" == u)).map
      (fun e => e.timestamp))]

/-! Helper lemmas about the min-hours filter. -/

lemma min_hours_filter_of_nonpos {chunks : List Chunk} {minHours : ℚ}
    (h : minHours ≤ 0) : min_hours_filter chunks minHours = chunks := by
  unfold min_hours_filter
  rw [if_neg (not_lt.mpr h)]

lemma mem_validDevelopers {chunks : List Chunk} {minHours : ℚ} {d : String} :
    d ∈ validDevelopers chunks minHours
      ↔ d ∈ summaryOwners chunks ∧ minHours ≤ devHours chunks d := by
  unfold validDevelopers
  rw [List.mem_filter]
  simp

lemma min_hours_filter_eq_filter {chunks : List Chunk} {minHours : ℚ}
    (h : 0 < minHours) :
    min_hours_filter chunks minHours
      = chunks.filter (fun c => decide (c.developer ∈ validDevelopers chunks minHours)) := by
  unfold min_hours_filter
  rw [if_pos h]

lemma filter_dev_min_hours (chunks : List Chunk) (minHours : ℚ) (d : String)
    (hd : d ∈ validDevelopers chunks minHours) :
    (min_hours_filter chunks minHours).filter (fun c => c.developer == d)
      = chunks.filter (fun c => c.developer == d) := by
  by_cases h : 0 < minHours
  · rw [min_hours_filter_eq_filter h, List.filter_filter]
    apply List.filter_congr
    intro c _
    by_cases hcd : c.developer = d
    · simp [hcd, hd]
    · simp [hcd]
  · rw [min_hours_filter_of_nonpos (not_lt.mp h)]

lemma devHours_min_hours_filter (chunks : List Chunk) (minHours : ℚ) (d : String)
    (hd : d ∈ validDevelopers chunks minHours) :
    devHours (min_hours_filter chunks minHours) d = devHours chunks d := by
  unfold devHours
  rw [filter_dev_min_hours chunks minHours d hd]

lemma min_hours_filter_idem (chunks : List Chunk) (minHours : ℚ) :
    min_hours_filter (min_hours_filter chunks minHours) minHours
      = min_hours_filter chunks minHours := by
  by_cases h : 0 < minHours
  · rw [@min_hours_filter_eq_filter (min_hours_filter chunks minHours) minHours h]
    apply List.filter_eq_self.mpr
    intro c hc
    have hcF : c ∈ chunks ∧ c.developer ∈ validDevelopers chunks minHours := by
      rw [min_hours_filter_eq_filter h] at hc
      have := List.mem_filter.mp hc
      simpa using this
    rw [decide_eq_true_eq, mem_validDevelopers]
    constructor
    · rw [mem_summaryOwners]
      exact List.mem_map.mpr ⟨c, hc, rfl⟩
    · rw [devHours_min_hours_filter chunks minHours _ hcF.2]
      exact (mem_validDevelopers.mp hcF.2).2
  · rw [min_hours_filter_of_nonpos (not_lt.mp h)]

/-! Helper lemmas about the pivot table. -/

lemma dayKeys_nodup (chunks : List Chunk) : (dayKeys chunks).Nodup := by
  unfold dayKeys
  exact List.nodup_dedup _

lemma pivotCell_eq (chunks : List Chunk) (d : ℤ) (dev : String) :
    pivotCell chunks d dev
      = if (d, dev) ∈ dayKeys chunks then round2 (dayBucketHours chunks d dev)
        else 0 := by
  unfold pivotCell pivot_by_day
  rw [List.filter_map]
  have hcong : (dayKeys chunks).filter
      ((fun r : (ℤ × String) × ℚ => r.1.1 == d && r.1.2 == dev) ∘
        (fun k => (k, round2 (dayBucketHours chunks k.1 k.2))))
      = (dayKeys chunks).filter (fun k => decide (k = (d, dev))) := by
    apply List.filter_congr
    intro k _
    show (k.1 == d && k.2 == dev) = decide (k = (d, dev))
    rw [Bool.eq_iff_iff]
    simp [Prod.ext_iff]
  rw [hcong, nodup_filter_eq_single (dayKeys_nodup chunks) (d, dev)]
  split
  · simp only [List.map_cons, List.map_nil, List.sum_cons, List.sum_nil, add_zero]
    exact round2_idem _
  · simp only [List.map_nil, List.sum_nil]
    exact round2_zero

/-! Helper facts for the descending summary sort. -/

instance : IsTotal SummaryRow (fun a b => a.totalHours ≤ b.totalHours) :=
  ⟨fun a b => le_total a.totalHours b.totalHours⟩

instance : IsTrans SummaryRow (fun a b => a.totalHours ≤ b.totalHours) :=
  ⟨fun _ _ _ h1 h2 => le_trans h1 h2⟩

lemma generate_summary_perm (chunks : List Chunk) :
    (generate_summary chunks).Perm ((summaryOwners chunks).map (summaryRow chunks)) := by
  unfold generate_summary sortByHoursDescending
  exact (List.reverse_perm _).trans
    ((List.perm_insertionSort _ _).trans (List.reverse_perm _))

lemma summaryRow_totalHours (chunks : List Chunk) (d : String) :
    (summaryRow chunks d).totalHours = round2 (devHours chunks d) := rfl

/-! Accumulated rounding error of a sum of rounded values. -/

lemma sum_round2_sub_abs_le {β : Type} (os : List β) (h : β → ℚ) :
    |(os.map (fun o => round2 (h o))).sum - (os.map h).sum|
      ≤ (os.length : ℚ) * (1/200) := by
  induction os with
  | nil => simp
  | cons o os ih =>
    simp only [List.map_cons, List.sum_cons, List.length_cons]
    have h1 := round2_sub_abs_le (h o)
    have heq : round2 (h o) + (os.map (fun o => round2 (h o))).sum
        - (h o + (os.map h).sum)
        = (round2 (h o) - h o)
          + ((os.map (fun o => round2 (h o))).sum - (os.map h).sum) := by ring
    rw [heq]
    have h2 := abs_add (round2 (h o) - h o)
      ((os.map (fun o => round2 (h o))).sum - (os.map h).sum)
    push_cast
    linarith

/-- C1: in the segmentation of `process_work_chunks`, a new chunk is opened for
an adjacent pair of one owner's sorted events exactly when their gap strictly
exceeds the inactivity threshold: an owner's chunk count is one plus the number
of adjacent gaps strictly above `60 * m` seconds, so events spaced exactly at
the threshold are merged into one chunk. -/
theorem claim_C1_strict_gap_boundary (events : List Event) (m : ℚ) (u : String)
    (h : userTimestamps events u ≠ []) :
    (userChunks events m u).length
      = 1 + bigGapCount m (userTimestamps events u) := by
  unfold userChunks
  rcases hts : userTimestamps events u with _ | ⟨t, ts⟩
  · exact absurd hts h
  · show (segScan u m t t 1 ts).length = _
    exact segScan_length u m ts t t 1

/-- Witness for C1: two events of one owner exactly 30 minutes apart are merged
into a single chunk under a 30-minute threshold. -/
theorem claim_C1_witness :
    userTimestamps c1events "a" ≠ [] ∧ (userChunks c1events 30 "a").length = 1 := by
  have hts : userTimestamps c1events "a" = [0, 1800] := by decide
  have hne : userTimestamps c1events "a" ≠ [] := by rw [hts]; simp
  refine ⟨hne, ?_⟩
  rw [claim_C1_strict_gap_boundary c1events 30 "a" hne, hts, bigGapCount_cons,
    bigGapCount_single, if_neg (by norm_num)]

/-- C2: for every input and positive threshold, within one owner's chunk
sequence of `process_work_chunks` every chunk but the last records as its gap
exactly the minutes from its end to the next chunk's start, that gap strictly
exceeds the threshold, the last chunk's gap is `None`, and every chunk carries
that owner. -/
theorem claim_C2_gap_to_next (events : List Event) (m : ℚ) (u : String)
    (hm : 0 < m) :
    List.Chain' (chunkGapRel m) (userChunks events m u) ∧
    (∀ c, (userChunks events m u).getLast? = some c → c.gapToNext = none) ∧
    (∀ c ∈ userChunks events m u, c.developer = u) := by
  refine ⟨?_, ?_, ?_⟩
  · unfold userChunks
    rcases hts : userTimestamps events u with _ | ⟨t, ts⟩
    · simp [segmentUser]
    · exact segScan_chain u m ts t t 1
  · intro c hc
    unfold userChunks at hc
    rcases hts : userTimestamps events u with _ | ⟨t, ts⟩
    · rw [hts] at hc
      simp [segmentUser] at hc
    · rw [hts] at hc
      have hne := segScan_ne_nil u m ts t t 1
      rw [show segmentUser u m (t :: ts) = segScan u m t t 1 ts from rfl,
        List.getLast?_eq_getLast _ hne] at hc
      exact Option.some.inj hc ▸ segScan_getLast_gap u m ts t t 1 hne
  · intro c hc
    unfold userChunks at hc
    rcases hts : userTimestamps events u with _ | ⟨t, ts⟩
    · rw [hts] at hc
      simp [segmentUser] at hc
    · rw [hts] at hc
      exact segScan_developer u m ts t t 1 c hc

/-- Witness for C2 at a concrete positive threshold and input. -/
theorem claim_C2_witness :
    0 < (30 : ℚ) ∧
      (List.Chain' (chunkGapRel 30) (userChunks c2events 30 "a") ∧
        (∀ c, (userChunks c2events 30 "a").getLast? = some c → c.gapToNext = none) ∧
        (∀ c ∈ userChunks c2events 30 "a", c.developer = "a")) :=
  ⟨by norm_num, claim_C2_gap_to_next c2events 30 "a" (by norm_num)⟩

/-- C7: segmentation does not depend on the input order of the events; any two
permutations of the same event multiset produce the same chunk table. -/
theorem claim_C7_order_independence (l1 l2 : List Event) (m : ℚ)
    (h : l1.Perm l2) :
    process_work_chunks l1 m = process_work_chunks l2 m := by
  unfold process_work_chunks
  rw [sortedUsers_eq_of_perm h]
  have h2 : ∀ u, userChunks l1 m u = userChunks l2 m u := by
    intro u
    unfold userChunks
    rw [userTimestamps_eq_of_perm h u]
  exact congrArg _ (funext h2)

/-- Witness for C7: the same two events in both input orders. -/
theorem claim_C7_witness :
    c7eventsA.Perm c7eventsB ∧
      process_work_chunks c7eventsA 30 = process_work_chunks c7eventsB 30 := by
  have hp : c7eventsA.Perm c7eventsB := List.Perm.swap _ _ _
  exact ⟨hp, claim_C7_order_independence c7eventsA c7eventsB 30 hp⟩

/-- C9: every valid event (non-missing, non-empty owner) is absorbed into
exactly one chunk: the `Log Count` total over all chunks equals the number of
valid input events. -/
theorem claim_C9_event_conservation (events : List Event) (m : ℚ) :
    ((process_work_chunks events m).map (fun c => c.logCount)).sum
      = (events.filter isValidEvent).length := by
  unfold process_work_chunks
  rw [sum_map_flatMap]
  have hstep : ∀ u ∈ sortedUsers events,
      ((userChunks events m u).map (fun c => c.logCount)).sum
        = ((validEvents events).filter (fun e => e.owner.getD "" == u)).length := by
    intro u _
    unfold userChunks
    rw [segmentUser_sum_logCount, userTimestamps_length]
  rw [List.map_congr_left hstep]
  have hnd : (sortedUsers events).Nodup := by
    unfold sortedUsers
    exact List.nodup_dedup _
  have hcov : ∀ e ∈ validEvents events, e.owner.getD "" ∈ sortedUsers events := by
    intro e he
    rw [mem_sortedUsers]
    exact List.mem_map.mpr ⟨e, he, rfl⟩
  have hfib := length_fiberwise (fun e => e.owner.getD "") (sortedUsers events)
    (validEvents events) hnd hcov
  rw [hfib]
  rfl

/-- C10: every chunk of `process_work_chunks` has mutually consistent duration
fields and ordered endpoints. -/
theorem claim_C10_duration_consistency (events : List Event) (m : ℚ) :
    ∀ c ∈ process_work_chunks events m,
      c.durationMin = 60 * c.durationHours ∧
      c.durationHours = ((c.stop - c.start : ℤ) : ℚ) / 3600 ∧
      c.start ≤ c.stop := by
  intro c hc
  unfold process_work_chunks at hc
  rw [List.mem_flatMap] at hc
  obtain ⟨u, _, hcu⟩ := hc
  unfold userChunks at hcu
  rcases hts : userTimestamps events u with _ | ⟨t, ts⟩
  · rw [hts] at hcu
    simp [segmentUser] at hcu
  · rw [hts] at hcu
    have hcu2 : c ∈ segScan u m t t 1 ts := hcu
    have hdur := segScan_durations u m ts t t 1 c hcu2
    have hsorted : List.Sorted (· ≤ ·) (t :: ts) := by
      rw [← hts]
      unfold userTimestamps
      exact List.sorted_insertionSort _ _
    have hle := segScan_start_le_stop u m ts t t 1 le_rfl hsorted c hcu2
    refine ⟨?_, hdur.2, hle⟩
    rw [hdur.1, hdur.2]
    ring

/-- Witness for C10 on a concrete run. -/
theorem claim_C10_witness :
    (⟨"a", 0, 600, 10, 1/6, 2, none⟩ : Chunk) ∈ process_work_chunks c10events 30 ∧
    ((⟨"a", 0, 600, 10, 1/6, 2, none⟩ : Chunk).durationMin
        = 60 * (⟨"a", 0, 600, 10, 1/6, 2, none⟩ : Chunk).durationHours ∧
      (⟨"a", 0, 600, 10, 1/6, 2, none⟩ : Chunk).durationHours
        = (((⟨"a", 0, 600, 10, 1/6, 2, none⟩ : Chunk).stop
            - (⟨"a", 0, 600, 10, 1/6, 2, none⟩ : Chunk).start : ℤ) : ℚ) / 3600 ∧
      (⟨"a", 0, 600, 10, 1/6, 2, none⟩ : Chunk).start
        ≤ (⟨"a", 0, 600, 10, 1/6, 2, none⟩ : Chunk).stop) := by
  have hrun : process_work_chunks c10events 30 = [⟨"a", 0, 600, 10, 1/6, 2, none⟩] := by
    have hmap : ((validEvents c10events).map (fun e => e.owner.getD "")) = ["a", "a"] := by
      decide
    have hsort : List.insertionSort (· ≤ ·) (["a", "a"] : List String) = ["a", "a"] := by
      simp [List.insertionSort, List.orderedInsert]
    have husers : sortedUsers c10events = ["a"] := by
      unfold sortedUsers
      rw [hmap, hsort]
      decide
    have hts : userTimestamps c10events "a" = [0, 600] := by decide
    have hchunks : userChunks c10events 30 "a" = [⟨"a", 0, 600, 10, 1/6, 2, none⟩] := by
      unfold userChunks
      rw [hts]
      show segScan "a" 30 0 0 1 [600] = _
      rw [segScan, if_neg (by norm_num), segScan]
      norm_num [mkChunk]
    unfold process_work_chunks
    rw [husers, List.flatMap_cons, hchunks]
    rfl
  have hmem : (⟨"a", 0, 600, 10, 1/6, 2, none⟩ : Chunk) ∈ process_work_chunks c10events 30 := by
    rw [hrun]
    exact List.mem_singleton.mpr rfl
  exact ⟨hmem, claim_C10_duration_consistency c10events 30 _ hmem⟩

/-- Stability of one ordered insertion: inserting an element that the original
order puts before every element of an already stably sorted list keeps every
tied pair in original order. -/
lemma pairwise_orderedInsert {α : Type} (r T : α → α → Prop) [DecidableRel r]
    [IsTotal α r] [IsTrans α r] (x : α) :
    ∀ s : List α, List.Sorted r s →
      s.Pairwise (fun a b => r a b ∧ (r b a → T a b)) →
      (∀ y ∈ s, T x y) →
      (s.orderedInsert r x).Pairwise (fun a b => r a b ∧ (r b a → T a b)) := by
  intro s
  induction s with
  | nil =>
    intro _ _ _
    simp [List.orderedInsert]
  | cons b t ih =>
    intro hs hp hx
    rw [List.orderedInsert]
    split
    · rename_i hrxb
      refine List.pairwise_cons.mpr ⟨?_, hp⟩
      intro y hy
      rcases List.mem_cons.mp hy with h | h
      · subst h
        exact ⟨hrxb, fun _ => hx _ (List.mem_cons_self _ _)⟩
      · refine ⟨?_, fun _ => hx _ (List.mem_cons.mpr (Or.inr h))⟩
        exact IsTrans.trans x b y hrxb ((List.sorted_cons.mp hs).1 y h)
    · rename_i hnrxb
      refine List.pairwise_cons.mpr ⟨?_, ?_⟩
      · intro y hy
        rcases (List.mem_orderedInsert r).mp hy with h | h
        · rw [h]
          refine ⟨?_, fun hxb => absurd hxb hnrxb⟩
          rcases total_of r x b with h2 | h2
          · exact absurd h2 hnrxb
          · exact h2
        · exact (List.pairwise_cons.mp hp).1 y h
      · exact ih (List.sorted_cons.mp hs).2 (List.pairwise_cons.mp hp).2
          (fun y hy => hx y (List.mem_cons.mpr (Or.inr hy)))

/-- Stability of insertion sort: sorting by a total preorder keeps every tied
pair in its original relative order. -/
lemma pairwise_insertionSort_stable {α : Type} (r T : α → α → Prop)
    [DecidableRel r] [IsTotal α r] [IsTrans α r] :
    ∀ l : List α, l.Pairwise T →
      (l.insertionSort r).Pairwise (fun a b => r a b ∧ (r b a → T a b)) := by
  intro l
  induction l with
  | nil =>
    intro _
    simp
  | cons x t ih =>
    intro hp
    rw [List.insertionSort]
    apply pairwise_orderedInsert r T x
    · exact List.sorted_insertionSort r t
    · exact ih (List.pairwise_cons.mp hp).2
    · intro y hy
      exact (List.pairwise_cons.mp hp).1 y
        ((List.perm_insertionSort r t).mem_iff.mp hy)

/-- The summary's groupby keys are strictly ascending: the sort gives a
non-decreasing list and deduplication removes the repeats. -/
lemma summaryOwners_pairwise_lt (chunks : List Chunk) :
    (summaryOwners chunks).Pairwise (fun a b => a < b) := by
  unfold summaryOwners
  have hle : ((chunks.map (fun c => c.developer)).insertionSort
      (· ≤ ·)).dedup.Pairwise (· ≤ ·) :=
    (List.sorted_insertionSort _ _).sublist (List.dedup_sublist _)
  have hne : ((chunks.map (fun c => c.developer)).insertionSort
      (· ≤ ·)).dedup.Pairwise (· ≠ ·) :=
    List.nodup_dedup _
  exact (hle.and hne).imp (fun h => lt_of_le_of_ne h.1 h.2)

/-- C4: the developer summary is ordered by descending total hours (the rounded
values the rows carry), and between any tied pair of rows the developers appear
in ascending order: `groupby` yields the rows in ascending developer order and
the descending sort reverses the values and the indexer around a stable
ascending argsort, so ties keep that ascending order.  Distinct developers per
row make the order deterministic. -/
theorem claim_C4_descending_order_ascending_ties (chunks : List Chunk) :
    List.Pairwise (fun a b => b.totalHours ≤ a.totalHours ∧
      (a.totalHours ≤ b.totalHours → a.developer < b.developer))
      (generate_summary chunks) := by
  have h1 : ((summaryOwners chunks).map (summaryRow chunks)).Pairwise
      (fun a b => a.developer < b.developer) := by
    rw [List.pairwise_map]
    exact summaryOwners_pairwise_lt chunks
  have h2 : ((summaryOwners chunks).map (summaryRow chunks)).reverse.Pairwise
      (fun a b => b.developer < a.developer) :=
    List.pairwise_reverse.mpr h1
  have h3 := pairwise_insertionSort_stable
    (fun a b : SummaryRow => a.totalHours ≤ b.totalHours)
    (fun a b : SummaryRow => b.developer < a.developer)
    ((summaryOwners chunks).map (summaryRow chunks)).reverse h2
  unfold generate_summary sortByHoursDescending
  exact List.pairwise_reverse.mpr h3

/-- C5 counterexample: with a zero threshold and a negative `min_hours` the run
succeeds and performs segmentation (two chunks from two events one second
apart); no configuration error is raised. -/
theorem claim_C5_counterexample :
    runPipeline c5events 0 (-1) = Except.ok (process_work_chunks c5events 0) ∧
    (process_work_chunks c5events 0).length = 2 := by
  constructor
  · unfold runPipeline
    rw [min_hours_filter_of_nonpos (by norm_num)]
  · have hmap : ((validEvents c5events).map (fun e => e.owner.getD "")) = ["a", "a"] := by
      decide
    have hsort : List.insertionSort (· ≤ ·) (["a", "a"] : List String) = ["a", "a"] := by
      simp [List.insertionSort, List.orderedInsert]
    have husers : sortedUsers c5events = ["a"] := by
      unfold sortedUsers
      rw [hmap, hsort]
      decide
    have hts : userTimestamps c5events "a" = [0, 1] := by decide
    have hchunks : userChunks c5events 0 "a"
        = [⟨"a", 0, 0, 0, 0, 1, some (1/60)⟩, ⟨"a", 1, 1, 0, 0, 1, none⟩] := by
      unfold userChunks
      rw [hts]
      show segScan "a" 0 0 0 1 [1] = _
      rw [segScan, if_pos (by norm_num), segScan]
      norm_num [mkChunk]
    unfold process_work_chunks
    rw [husers, List.flatMap_cons, hchunks]
    rfl

/-- C5 amended: the source performs no configuration validation; the pipeline
always succeeds, and a non-positive `min_hours` merely disables the filter while
segmentation runs with the given threshold unchanged. -/
theorem claim_C5_amended_no_validation (events : List Event) (m mh : ℚ) :
    (runPipeline events m mh).isOk = true ∧
    (mh ≤ 0 → runPipeline events m mh = Except.ok (process_work_chunks events m)) := by
  constructor
  · rfl
  · intro h
    unfold runPipeline
    rw [min_hours_filter_of_nonpos h]

/-- Witness for the amended C5 at a zero threshold and negative `min_hours`. -/
theorem claim_C5_witness :
    (runPipeline c5events 0 (-1)).isOk = true ∧
      runPipeline c5events 0 (-1) = Except.ok (process_work_chunks c5events 0) :=
  ⟨(claim_C5_amended_no_validation c5events 0 (-1)).1,
    (claim_C5_amended_no_validation c5events 0 (-1)).2 (by norm_num)⟩

/-- C6: the min-hours filter is the identity with zero owners removed when
`min_hours ≤ 0`, and it is idempotent: a second application with the same
threshold changes nothing and removes zero owners. -/
theorem claim_C6_filter_identity_idempotent (chunks : List Chunk) (mh : ℚ) :
    (mh ≤ 0 → min_hours_filter chunks mh = chunks ∧ removedOwnerCount chunks mh = 0) ∧
    min_hours_filter (min_hours_filter chunks mh) mh = min_hours_filter chunks mh ∧
    removedOwnerCount (min_hours_filter chunks mh) mh = 0 := by
  refine ⟨?_, min_hours_filter_idem chunks mh, ?_⟩
  · intro h
    refine ⟨min_hours_filter_of_nonpos h, ?_⟩
    unfold removedOwnerCount
    rw [min_hours_filter_of_nonpos h, Nat.sub_self]
  · unfold removedOwnerCount
    rw [min_hours_filter_idem chunks mh, Nat.sub_self]

/-- Witness for C6 at a concrete chunk table, with the no-op case at threshold 0
and the idempotence case at threshold 2. -/
theorem claim_C6_witness :
    (min_hours_filter c6chunks 0 = c6chunks ∧ removedOwnerCount c6chunks 0 = 0) ∧
    (min_hours_filter (min_hours_filter c6chunks 2) 2 = min_hours_filter c6chunks 2 ∧
      removedOwnerCount (min_hours_filter c6chunks 2) 2 = 0) :=
  ⟨(claim_C6_filter_identity_idempotent c6chunks 0).1 (by norm_num),
    ⟨(claim_C6_filter_identity_idempotent c6chunks 2).2.1,
      (claim_C6_filter_identity_idempotent c6chunks 2).2.2⟩⟩

/-- C8: the summary's total hours sum to the chunk table's total hours within
rounding tolerance: one half-unit of the second decimal place per summary
row. -/
theorem claim_C8_summation_invariant (chunks : List Chunk) :
    |((generate_summary chunks).map (fun r => r.totalHours)).sum
        - (chunks.map (fun c => c.durationHours)).sum|
      ≤ ((generate_summary chunks).length : ℚ) * (1/200) := by
  have hperm := (generate_summary_perm chunks).map (fun r => r.totalHours)
  have hsum : ((generate_summary chunks).map (fun r => r.totalHours)).sum
      = ((summaryOwners chunks).map (fun d => round2 (devHours chunks d))).sum := by
    rw [hperm.sum_eq, List.map_map]
    rfl
  have hlen : (generate_summary chunks).length = (summaryOwners chunks).length := by
    rw [(generate_summary_perm chunks).length_eq, List.length_map]
  have hnd : (summaryOwners chunks).Nodup := by
    unfold summaryOwners
    exact List.nodup_dedup _
  have hcov : ∀ c ∈ chunks, c.developer ∈ summaryOwners chunks := by
    intro c hc
    rw [mem_summaryOwners]
    exact List.mem_map.mpr ⟨c, hc, rfl⟩
  have hfib := sum_fiberwise (fun c => c.developer) (fun c => c.durationHours)
    (summaryOwners chunks) chunks hnd hcov
  have hbound := sum_round2_sub_abs_le (summaryOwners chunks) (devHours chunks)
  rw [hsum, hlen, ← hfib]
  exact hbound

/-- C3 amended: rounding is applied at every aggregation stage, not once at the
boundary: each pivot cell is the bucket sum already rounded (so the second
`round(2)` of the pivot table is a no-op), the per-day TOTAL column and the
TOTAL row's grand total are rounded sums of already-rounded values, and the
summary's hour values are rounded before sorting. -/
theorem claim_C3_amended_rounding_every_stage (chunks : List Chunk) (d : ℤ)
    (dev : String) :
    pivotCell chunks d dev
        = (if (d, dev) ∈ dayKeys chunks then round2 (dayBucketHours chunks d dev)
           else 0) ∧
      pivotRowTotal chunks d
        = round2 (((pivotDevelopers chunks).map (pivotCell chunks d)).sum) ∧
      pivotGrandTotal chunks
        = round2 (((pivotDates chunks).map (pivotRowTotal chunks)).sum) ∧
      (generate_summary chunks).map (fun r => round2 r.totalHours)
        = (generate_summary chunks).map (fun r => r.totalHours) := by
  refine ⟨pivotCell_eq chunks d dev, rfl, rfl, ?_⟩
  apply List.map_congr_left
  intro r hr
  have hr2 : r ∈ (summaryOwners chunks).map (summaryRow chunks) :=
    (generate_summary_perm chunks).mem_iff.mp hr
  obtain ⟨o, _, ho⟩ := List.mem_map.mp hr2
  rw [← ho, summaryRow_totalHours]
  exact round2_idem _

/-- C3 counterexample: three 14-second chunks of one owner on three days.  The
pivot grand total computed by the code from already-rounded cells is 0, while
the full-precision sum rounded once at the boundary is 0.01; the internal
accumulation is therefore not carried at full precision. -/
theorem claim_C3_counterexample :
    pivotGrandTotal c3chunks = 0 ∧ specGrandTotal c3chunks = 1/100 := by
  have hkeys : dayKeys c3chunks = [(0, "a"), (1, "a"), (2, "a")] := by
    unfold dayKeys
    have hmap : (c3chunks.map (fun c => (chunkDate c, c.developer)))
        = [(0, "a"), (1, "a"), (2, "a")] := by decide
    rw [hmap]
    have h12 : lexLe (1, "a") (2, "a") := Or.inl (by norm_num)
    have h01 : lexLe (0, "a") (1, "a") := Or.inl (by norm_num)
    have hsort : List.insertionSort lexLe [((0:ℤ), "a"), (1, "a"), (2, "a")]
        = [(0, "a"), (1, "a"), (2, "a")] := by
      simp only [List.insertionSort, List.orderedInsert, h12, h01, if_true]
    rw [hsort]
    decide
  have hdates : pivotDates c3chunks = [0, 1, 2] := by
    unfold pivotDates
    have hmap : c3chunks.map chunkDate = [0, 1, 2] := by decide
    rw [hmap]
    decide
  have hdevs : pivotDevelopers c3chunks = ["a"] := by
    unfold pivotDevelopers
    have hmap : c3chunks.map (fun c => c.developer) = ["a", "a", "a"] := by decide
    rw [hmap]
    have hsort : List.insertionSort (· ≤ ·) (["a", "a", "a"] : List String)
        = ["a", "a", "a"] := by
      simp [List.insertionSort, List.orderedInsert]
    rw [hsort]
    decide
  have hround0 : round2 (7/1800 : ℚ) = 0 := by
    norm_num [round2, roundHalfEven]
  have hb0 : dayBucketHours c3chunks 0 "a" = 7/1800 := by
    show ((([⟨"a", 0, 14, 7/30, 7/1800, 1, none⟩] : List Chunk)).map
      (fun c => c.durationHours)).sum = 7/1800
    norm_num
  have hb1 : dayBucketHours c3chunks 1 "a" = 7/1800 := by
    show ((([⟨"a", 86400, 86414, 7/30, 7/1800, 1, none⟩] : List Chunk)).map
      (fun c => c.durationHours)).sum = 7/1800
    norm_num
  have hb2 : dayBucketHours c3chunks 2 "a" = 7/1800 := by
    show ((([⟨"a", 172800, 172814, 7/30, 7/1800, 1, none⟩] : List Chunk)).map
      (fun c => c.durationHours)).sum = 7/1800
    norm_num
  have hc0 : pivotCell c3chunks 0 "a" = 0 := by
    rw [pivotCell_eq, hkeys, if_pos (by decide), hb0, hround0]
  have hc1 : pivotCell c3chunks 1 "a" = 0 := by
    rw [pivotCell_eq, hkeys, if_pos (by decide), hb1, hround0]
  have hc2 : pivotCell c3chunks 2 "a" = 0 := by
    rw [pivotCell_eq, hkeys, if_pos (by decide), hb2, hround0]
  have hrow0 : pivotRowTotal c3chunks 0 = 0 := by
    unfold pivotRowTotal
    rw [hdevs, List.map_cons, List.map_nil, hc0]
    simp [round2_zero]
  have hrow1 : pivotRowTotal c3chunks 1 = 0 := by
    unfold pivotRowTotal
    rw [hdevs, List.map_cons, List.map_nil, hc1]
    simp [round2_zero]
  have hrow2 : pivotRowTotal c3chunks 2 = 0 := by
    unfold pivotRowTotal
    rw [hdevs, List.map_cons, List.map_nil, hc2]
    simp [round2_zero]
  constructor
  · unfold pivotGrandTotal
    rw [hdates, List.map_cons, List.map_cons, List.map_cons, List.map_nil,
      hrow0, hrow1, hrow2]
    simp [round2_zero]
  · show round2 ((c3chunks.map (fun c => c.durationHours)).sum) = 1/100
    have hsum : (c3chunks.map (fun c => c.durationHours)).sum = 7/600 := by
      show ([(7:ℚ)/1800, 7/1800, 7/1800]).sum = 7/600
      norm_num
    rw [hsum]
    norm_num [round2, roundHalfEven]
